import Mathlib

/-!
Verification of the gorl token-bucket rate limiter.

Shallow embedding conventions:
* Instants and durations are integer nanosecond counts (ℤ).  Go's
  time.Time.Sub saturates its int64 nanosecond result, which satSub mirrors;
  time.Time.Add and duration products are exact integer arithmetic here.
* The source's intervalCount converts durations through float64.  That
  arithmetic is modelled exactly: floatRound is IEEE-754 round-to-nearest-even
  at 53 significant bits over ℚ.  Every value the bucket can feed it lies in
  the binary64 normal range (magnitudes between 2^-63 and 2^64), so neither
  subnormals nor overflow arise and the unbounded-exponent model coincides
  with binary64.
* Token counts are ℤ; int64 wrap-around is outside the modelled domain.
* Stateful methods are state-passing functions returning (result, bucket).
  InferTokensAt performs an integer division that panics in Go when Refill
  is zero, so it returns an Option.
-/

namespace Gorl

/-- Difference of two instants as a Go time.Duration: e.Sub(s) in int64
nanoseconds, saturating to the int64 range per the time package contract. -/
def satSub (e s : ℤ) : ℤ :=
  if e - s < -(2 ^ 63) then -(2 ^ 63)
  else if 2 ^ 63 - 1 < e - s then 2 ^ 63 - 1
  else e - s

/-- Floor of a rational, computed directly from its reduced fraction. -/
def ratFloor (q : ℚ) : ℤ := q.num / (q.den : ℤ)

/-- Truncation toward zero: the semantics of Go's float64→int64 conversion for
in-range values (out-of-range conversion is implementation-defined in Go and
outside the modelled domain). -/
def ratTrunc (q : ℚ) : ℤ := if q < 0 then -ratFloor (-q) else ratFloor q

/-- Round a rational to the nearest integer, ties to even. -/
def rnd (x : ℚ) : ℤ :=
  if x - ratFloor x < 1 / 2 then ratFloor x
  else if 1 / 2 < x - ratFloor x then ratFloor x + 1
  else if ratFloor x % 2 = 0 then ratFloor x else ratFloor x + 1

/-- Round-to-nearest-even at 53 significant bits: the binary64 rounding of a
real value, for magnitudes in the normal range. -/
def floatRound (q : ℚ) : ℚ :=
  if q = 0 then 0
  else if q < 0 then
    -((rnd (-q / 2 ^ (Int.log 2 (-q) - 52)) : ℚ) * 2 ^ (Int.log 2 (-q) - 52))
  else (rnd (q / 2 ^ (Int.log 2 q - 52)) : ℚ) * 2 ^ (Int.log 2 q - 52)

/-- Conversion of an int64 to float64 (rounds to nearest). -/
def floatOfInt (n : ℤ) : ℚ := floatRound (n : ℚ)

/-- Correctly rounded float64 division of two float64 values. -/
def floatDiv (x y : ℚ) : ℚ := floatRound (x / y)

/-- intervalCount from the source (utils.go): math.Abs(float64(end.Sub(start)))
divided by float64(interval) in float64, then truncated to int64.  The second
instant is called finish here because end is a Lean keyword. -/
def intervalCount (start finish interval : ℤ) : ℤ :=
  ratTrunc (floatDiv |floatOfInt (satSub finish start)| (floatOfInt interval))

/-- nextAfter from the source: start + intervalCount*interval, plus one more
interval when that candidate is not strictly after finish. -/
def nextAfter (start finish interval : ℤ) : ℤ :=
  let diff := intervalCount start finish interval
  let t := start + diff * interval
  if finish < t then t else t + interval

/-- The source's generic min over int64. -/
def gomin (a b : ℤ) : ℤ := if a < b then a else b

/-- Bucket state: the three immutable configuration fields and the mutable
token balance and last-update instant. -/
structure Bucket where
  Limit : ℤ
  Burst : ℤ
  Refill : ℤ
  tokens : ℤ
  lastUpdate : ℤ
deriving DecidableEq

/-- NewBucket: the balance starts at the burst cap; Go leaves lastUpdate as
the zero time.Time, modelled as instant 0 (the first reconciliation hits the
saturated branch and re-anchors it before it is ever used in interval math). -/
def NewBucket (limit burst refill : ℤ) : Bucket :=
  { Limit := limit, Burst := burst, Refill := refill
    tokens := burst, lastUpdate := 0 }

/-- skipDiff from the source: advance lastUpdate by diff * Refill. -/
def skipDiff (b : Bucket) (diff : ℤ) : Bucket :=
  { b with lastUpdate := b.lastUpdate + diff * b.Refill }

/-- refill from the source: the lazy reconciliation run at the start of every
reconciling operation. -/
def refill (b : Bucket) (t : ℤ) : Bucket :=
  if b.tokens = b.Burst then
    { b with lastUpdate := t }
  else
    let delta := intervalCount b.lastUpdate t b.Refill
    let b1 := skipDiff b delta
    let b2 := { b1 with tokens := b1.tokens + delta * b1.Limit }
    if b2.Burst ≤ b2.tokens then { b2 with tokens := b2.Burst, lastUpdate := t }
    else b2

/-- CanDrawAt: reconcile, then report whether n tokens are available. -/
def Bucket.CanDrawAt (b : Bucket) (t n : ℤ) : Bool × Bucket :=
  let r := refill b t
  (decide (n ≤ r.tokens), r)

/-- DrawAt: reconcile, then draw n tokens all-or-nothing. -/
def Bucket.DrawAt (b : Bucket) (t n : ℤ) : Bool × Bucket :=
  let r := refill b t
  if r.tokens < n then (false, r)
  else (true, { r with tokens := r.tokens - n })

/-- DrawMaxAt: reconcile, then draw up to n tokens, returning the number drawn. -/
def Bucket.DrawMaxAt (b : Bucket) (t n : ℤ) : ℤ × Bucket :=
  let r := refill b t
  let drawn := gomin n r.tokens
  (drawn, { r with tokens := r.tokens - drawn })

/-- ForceDrawAt: reconcile, subtract n unconditionally, return the new balance. -/
def Bucket.ForceDrawAt (b : Bucket) (t n : ℤ) : ℤ × Bucket :=
  let r := refill b t
  (r.tokens - n, { r with tokens := r.tokens - n })

/-- SetTokensAt: reconcile, then overwrite the balance. -/
def Bucket.SetTokensAt (b : Bucket) (t v : ℤ) : Bucket :=
  let r := refill b t
  { r with tokens := v }

/-- TokensAt: reconcile, then report the balance. -/
def Bucket.TokensAt (b : Bucket) (t : ℤ) : ℤ × Bucket :=
  let r := refill b t
  (r.tokens, r)

/-- RemainingAt: TokensAt clamped below at zero (display only, no mutation
beyond the reconciliation TokensAt performs). -/
def Bucket.RemainingAt (b : Bucket) (t : ℤ) : ℤ × Bucket :=
  let r := b.TokensAt t
  (if r.1 < 0 then 0 else r.1, r.2)

/-- InferTokensAt: a pure forecast of the balance at t.  The Go body divides
by Refill with int64 division (truncating toward zero), which panics when
Refill is zero, hence the Option; it performs no field assignment, so the
bucket component of the result is the input state itself. -/
def Bucket.InferTokensAt (b : Bucket) (t : ℤ) : Option (ℤ × Bucket) :=
  if b.Refill = 0 then none
  else
    let delta := Int.tdiv (satSub t b.lastUpdate) b.Refill
    let tk := b.tokens + delta * b.Limit
    if b.Burst < tk then some (b.Burst, b) else some (tk, b)

/-- NextRefillAt: reconcile, then compute the next interval-aligned instant. -/
def Bucket.NextRefillAt (b : Bucket) (t : ℤ) : ℤ × Bucket :=
  let r := refill b t
  (nextAfter r.lastUpdate t r.Refill, r)

/-- ResetAt: balance back to the burst cap, lastUpdate to t. -/
def Bucket.ResetAt (b : Bucket) (t : ℤ) : Bucket :=
  { b with tokens := b.Burst, lastUpdate := t }

/-- IsResetAt: reconcile, then report whether the balance equals the cap. -/
def Bucket.IsResetAt (b : Bucket) (t : ℤ) : Bool × Bucket :=
  let r := refill b t
  (decide (r.tokens = r.Burst), r)

/-- Loop body of the manager's Purge, over the registry modelled as an
association list: each entry's bucket is tested with IsReset (whose
reconciliation side effect on retained buckets is kept, since Go buckets are
shared by pointer), matching entries are deleted, and the loop threads the
removed counter — which the source never increments.  now is the logical
instant sampled by the iteration's IsReset calls. -/
def purgeLoop (now : ℤ) : List (String × Bucket) → List (String × Bucket) × Nat
  | [] => ([], 0)
  | (k, b) :: rest =>
    let r := b.IsResetAt now
    let p := purgeLoop now rest
    if r.1 then (p.1, p.2) else ((k, r.2) :: p.1, p.2)

/-- Purge from the source: sweep the registry, returning the removed counter. -/
def Purge (m : List (String × Bucket)) (now : ℤ) : List (String × Bucket) × Nat :=
  purgeLoop now m

/-- refillSpec: the specification's reference reconciliation algorithm, §4.2
steps 1–5, written from the spec's words for comparison with the source's
refill (this is the one definition in the file not translated from code). -/
def refillSpec (b : Bucket) (t : ℤ) : Bucket :=
  if b.tokens = b.Burst then { b with lastUpdate := t }
  else
    let delta := intervalCount b.lastUpdate t b.Refill
    let anchored := b.lastUpdate + delta * b.Refill
    let balance := b.tokens + delta * b.Limit
    if b.Burst ≤ balance then { b with tokens := b.Burst, lastUpdate := t }
    else { b with tokens := balance, lastUpdate := anchored }

/-- Helper: explicit case form of refill, used throughout the proofs. -/
theorem refill_eq (b : Bucket) (t : ℤ) :
    refill b t =
      if b.tokens = b.Burst then { b with lastUpdate := t }
      else if b.Burst ≤ b.tokens + intervalCount b.lastUpdate t b.Refill * b.Limit then
        { b with tokens := b.Burst, lastUpdate := t }
      else
        { b with tokens := b.tokens + intervalCount b.lastUpdate t b.Refill * b.Limit,
                 lastUpdate := b.lastUpdate + intervalCount b.lastUpdate t b.Refill * b.Refill } :=
  rfl

/-- C1: the source's refill reconciliation follows the spec's reference
algorithm exactly: a saturated bucket only re-anchors lastUpdate to the query
time; otherwise delta = intervalCount(lastUpdate, t, refillInterval) intervals
are credited, lastUpdate advances by exactly delta*refillInterval (not to t),
delta*rate tokens are added, and a balance meeting or exceeding burstCap is
clamped to burstCap with lastUpdate re-anchored to t exactly. -/
theorem C1_refill_follows_spec (b : Bucket) (t : ℤ) :
    refill b t = refillSpec b t := rfl

/-- C3: DrawAt is all-or-nothing against the reconciled balance: when the
post-reconciliation balance is at least n it returns true and subtracts
exactly n, and when it is short it returns false and leaves the reconciled
state untouched. -/
theorem C3_drawAt_all_or_nothing (b : Bucket) (t n : ℤ) (_hn : 0 ≤ n) :
    (n ≤ (refill b t).tokens →
      b.DrawAt t n = (true, { refill b t with tokens := (refill b t).tokens - n })) ∧
    ((refill b t).tokens < n →
      b.DrawAt t n = (false, refill b t)) := by
  unfold Bucket.DrawAt
  constructor
  · intro h
    rw [if_neg (by omega)]
  · intro h
    rw [if_pos h]

/-- Witness for C3 at a concrete input: a fresh 5/20/1s bucket at t = 0 with
n = 3, which the reconciled balance (20) covers. -/
theorem C3_witness :
    (0 : ℤ) ≤ 3 ∧
    ((3 ≤ (refill (NewBucket 5 20 (10 ^ 9)) 0).tokens →
      (NewBucket 5 20 (10 ^ 9)).DrawAt 0 3 =
        (true, { refill (NewBucket 5 20 (10 ^ 9)) 0 with
                  tokens := (refill (NewBucket 5 20 (10 ^ 9)) 0).tokens - 3 })) ∧
    ((refill (NewBucket 5 20 (10 ^ 9)) 0).tokens < 3 →
      (NewBucket 5 20 (10 ^ 9)).DrawAt 0 3 = (false, refill (NewBucket 5 20 (10 ^ 9)) 0))) :=
  ⟨by decide, C3_drawAt_all_or_nothing (NewBucket 5 20 (10 ^ 9)) 0 3 (by decide)⟩

/-- C4: evaluation of Purge at a registry holding one fully-reset bucket: the
entry is removed, yet the returned counter is 0 — the loop never increments
removed — contradicting the claim and the method's own documentation, which
promise the number of buckets removed (1 here). -/
theorem C4_purge_counter_stuck_at_zero :
    Purge [("k", NewBucket 5 20 (10 ^ 9))] 0 = ([], 0) ∧ (0 : Nat) ≠ 1 :=
  ⟨rfl, by decide⟩

/-- C7: immediately after the refill computation that starts every reconciling
operation (CanDrawAt, DrawAt, DrawMaxAt, ForceDrawAt, SetTokensAt, TokensAt,
IsResetAt all begin with refill), the balance is at most burstCap — also when
the prior balance had been pushed above burstCap. -/
theorem C7_refill_caps_at_burst (b : Bucket) (t : ℤ) (_hL : 0 ≤ b.Limit) :
    (refill b t).tokens ≤ b.Burst := by
  rw [refill_eq]
  by_cases h1 : b.tokens = b.Burst
  · rw [if_pos h1]
    exact le_of_eq h1
  · rw [if_neg h1]
    by_cases h2 : b.Burst ≤ b.tokens + intervalCount b.lastUpdate t b.Refill * b.Limit
    · rw [if_pos h2]
    · rw [if_neg h2]
      exact le_of_not_le h2

/-- Witness for C7 at a concrete input: a bucket whose balance (50) was pushed
above its burst cap (20), with nonnegative rate. -/
theorem C7_witness :
    (0 : ℤ) ≤ (⟨5, 20, 10 ^ 9, 50, 0⟩ : Bucket).Limit ∧
    (refill (⟨5, 20, 10 ^ 9, 50, 0⟩ : Bucket) 7).tokens ≤ (⟨5, 20, 10 ^ 9, 50, 0⟩ : Bucket).Burst :=
  ⟨by decide, C7_refill_caps_at_burst (⟨5, 20, 10 ^ 9, 50, 0⟩ : Bucket) 7 (by decide)⟩

/-- C10: DrawMaxAt returns min(n, reconciled balance) and subtracts exactly
that value; in particular a negative request with sufficient balance returns n
itself and increases the balance by |n|. -/
theorem C10_drawMaxAt_returns_min (b : Bucket) (t n : ℤ) :
    (b.DrawMaxAt t n).1 = min n (refill b t).tokens ∧
    (b.DrawMaxAt t n).2 =
      { refill b t with tokens := (refill b t).tokens - min n (refill b t).tokens } ∧
    (n < 0 → n ≤ (refill b t).tokens →
      (b.DrawMaxAt t n).1 = n ∧
      (b.DrawMaxAt t n).2.tokens = (refill b t).tokens + |n|) := by
  have hg : gomin n (refill b t).tokens = min n (refill b t).tokens := by
    unfold gomin
    omega
  have e1 : (b.DrawMaxAt t n).1 = gomin n (refill b t).tokens := rfl
  have e2 : (b.DrawMaxAt t n).2 =
      { refill b t with tokens := (refill b t).tokens - gomin n (refill b t).tokens } := rfl
  refine ⟨by rw [e1, hg], by rw [e2, hg], ?_⟩
  intro h1 h2
  rw [abs_of_neg h1]
  constructor
  · rw [e1, hg]
    omega
  · have e3 : (b.DrawMaxAt t n).2.tokens =
        (refill b t).tokens - gomin n (refill b t).tokens := by rw [e2]
    rw [e3, hg]
    omega

/-- Witness for C10 at a concrete input: a fresh 5/20/1s bucket at t = 0 with
the negative request n = -3, whose reconciled balance (20) is at least -3, so
the call returns -3 and the balance rises by 3 to 23. -/
theorem C10_witness :
    ((-3 : ℤ) < 0) ∧
    ((NewBucket 5 20 (10 ^ 9)).DrawMaxAt 0 (-3)).1 = -3 ∧
    ((NewBucket 5 20 (10 ^ 9)).DrawMaxAt 0 (-3)).2.tokens =
      (refill (NewBucket 5 20 (10 ^ 9)) 0).tokens + |(-3 : ℤ)| :=
  ⟨by decide,
   (C10_drawMaxAt_returns_min (NewBucket 5 20 (10 ^ 9)) 0 (-3)).2.2
     (by decide) (by decide)⟩

/-! Properties of the rounding primitives. -/

/-- Helper: ratFloor agrees with the mathematical floor. -/
theorem ratFloor_eq_floor (q : ℚ) : ratFloor q = ⌊q⌋ :=
  Rat.floor_def.symm

/-- Helper: truncation toward zero agrees with floor on nonnegative input. -/
theorem ratTrunc_eq_floor {q : ℚ} (h : 0 ≤ q) : ratTrunc q = ⌊q⌋ := by
  unfold ratTrunc
  rw [if_neg (not_lt.mpr h), ratFloor_eq_floor]

/-- Helper: rnd is bounded below by the floor. -/
theorem floor_le_rnd (x : ℚ) : ⌊x⌋ ≤ rnd x := by
  unfold rnd
  rw [ratFloor_eq_floor]
  split_ifs <;> omega

/-- Helper: rnd is bounded above by the floor plus one. -/
theorem rnd_le_floor_add_one (x : ℚ) : rnd x ≤ ⌊x⌋ + 1 := by
  unfold rnd
  rw [ratFloor_eq_floor]
  split_ifs <;> omega

/-- Helper: rnd fixes the integers. -/
theorem rnd_intCast (n : ℤ) : rnd (n : ℚ) = n := by
  unfold rnd
  rw [ratFloor_eq_floor, Int.floor_intCast]
  rw [if_pos (by norm_num)]

/-- Helper: rnd introduces an error of at most one half. -/
theorem abs_rnd_sub_le (x : ℚ) : |(rnd x : ℚ) - x| ≤ 1 / 2 := by
  have hf1 : (⌊x⌋ : ℚ) ≤ x := Int.floor_le x
  have hf2 : x < (⌊x⌋ : ℚ) + 1 := Int.lt_floor_add_one x
  unfold rnd
  rw [ratFloor_eq_floor]
  split_ifs with h1 h2 h3 <;> rw [abs_le] <;> push_cast <;> constructor <;> linarith

/-- Helper: rnd is monotone. -/
theorem rnd_mono {x y : ℚ} (h : x ≤ y) : rnd x ≤ rnd y := by
  have hfm : ⌊x⌋ ≤ ⌊y⌋ := Int.floor_le_floor h
  rcases lt_or_eq_of_le hfm with hlt | heq
  · calc rnd x ≤ ⌊x⌋ + 1 := rnd_le_floor_add_one x
      _ ≤ ⌊y⌋ := by omega
      _ ≤ rnd y := floor_le_rnd y
  · unfold rnd
    rw [ratFloor_eq_floor, ratFloor_eq_floor, ← heq]
    split_ifs <;> first | omega | linarith

/-- Helper: value of floatRound at zero. -/
theorem floatRound_zero : floatRound 0 = 0 := by
  unfold floatRound
  rw [if_pos rfl]

/-- Helper: unfolding of floatRound on positive input. -/
theorem floatRound_pos_eq {q : ℚ} (hq : 0 < q) :
    floatRound q =
      (rnd (q / 2 ^ (Int.log 2 q - 52)) : ℚ) * 2 ^ (Int.log 2 q - 52) := by
  unfold floatRound
  rw [if_neg hq.ne', if_neg (not_lt.mpr hq.le)]

/-- Helper: floatRound is odd. -/
theorem floatRound_neg (q : ℚ) : floatRound (-q) = -floatRound q := by
  rcases lt_trichotomy q 0 with h | h | h
  · have h2 : (0:ℚ) < -q := by linarith
    rw [floatRound_pos_eq h2]
    unfold floatRound
    rw [if_neg h.ne, if_pos h]
    rw [neg_neg]
  · rw [h]
    rw [floatRound_zero]
    norm_num
    exact floatRound_zero
  · have h2 : -q < 0 := by linarith
    unfold floatRound
    rw [if_neg h2.ne, if_pos h2, if_neg h.ne', if_neg (not_lt.mpr h.le)]
    rw [neg_neg]

/-- Helper: lower mantissa bound, 2^52 ≤ q / 2^(log₂ q - 52) for positive q. -/
theorem mant_lb {q : ℚ} (hq : 0 < q) :
    (2:ℚ) ^ (52:ℤ) ≤ q / 2 ^ (Int.log 2 q - 52) := by
  have hlog : (2:ℚ) ^ (Int.log 2 q) ≤ q := by
    have := Int.zpow_log_le_self (b := 2) one_lt_two hq
    push_cast at this
    exact this
  have hpow : (0:ℚ) < 2 ^ (Int.log 2 q - 52) := zpow_pos (by norm_num) _
  rw [le_div_iff₀ hpow, ← zpow_add₀ (by norm_num : (2:ℚ) ≠ 0)]
  calc (2:ℚ) ^ (52 + (Int.log 2 q - 52)) = 2 ^ (Int.log 2 q) := by ring_nf
    _ ≤ q := hlog

/-- Helper: upper mantissa bound, q / 2^(log₂ q - 52) < 2^53 for positive q. -/
theorem mant_ub {q : ℚ} (hq : 0 < q) :
    q / 2 ^ (Int.log 2 q - 52) < (2:ℚ) ^ (53:ℤ) := by
  have hlog : q < (2:ℚ) ^ (Int.log 2 q + 1) := by
    have := Int.lt_zpow_succ_log_self (b := 2) one_lt_two q
    push_cast at this
    exact this
  have hpow : (0:ℚ) < 2 ^ (Int.log 2 q - 52) := zpow_pos (by norm_num) _
  rw [div_lt_iff₀ hpow, ← zpow_add₀ (by norm_num : (2:ℚ) ≠ 0)]
  calc q < (2:ℚ) ^ (Int.log 2 q + 1) := hlog
    _ = 2 ^ (53 + (Int.log 2 q - 52)) := by ring_nf

/-- Helper: floatRound of a positive value is at least 2^(log₂ q). -/
theorem floatRound_lb {q : ℚ} (hq : 0 < q) :
    (2:ℚ) ^ (Int.log 2 q) ≤ floatRound q := by
  rw [floatRound_pos_eq hq]
  have h1 : (2:ℚ) ^ (52:ℤ) ≤ q / 2 ^ (Int.log 2 q - 52) := mant_lb hq
  have h2 : ((2:ℤ) ^ (52:ℕ) : ℤ) ≤ rnd (q / 2 ^ (Int.log 2 q - 52)) := by
    refine le_trans ?_ (floor_le_rnd _)
    rw [Int.le_floor]
    push_cast
    convert h1 using 1
    norm_num
  have hpow : (0:ℚ) < 2 ^ (Int.log 2 q - 52) := zpow_pos (by norm_num) _
  calc (2:ℚ) ^ (Int.log 2 q) = 2 ^ (52:ℤ) * 2 ^ (Int.log 2 q - 52) := by
        rw [← zpow_add₀ (by norm_num : (2:ℚ) ≠ 0)]
        ring_nf
    _ ≤ (rnd (q / 2 ^ (Int.log 2 q - 52)) : ℚ) * 2 ^ (Int.log 2 q - 52) := by
        apply mul_le_mul_of_nonneg_right _ hpow.le
        have : ((2:ℤ) ^ (52:ℕ) : ℚ) ≤ (rnd (q / 2 ^ (Int.log 2 q - 52)) : ℚ) := by
          exact_mod_cast h2
        calc (2:ℚ) ^ (52:ℤ) = ((2:ℤ) ^ (52:ℕ) : ℚ) := by norm_num
          _ ≤ _ := this

/-- Helper: floatRound of a positive value is at most 2^(log₂ q + 1). -/
theorem floatRound_ub {q : ℚ} (hq : 0 < q) :
    floatRound q ≤ (2:ℚ) ^ (Int.log 2 q + 1) := by
  rw [floatRound_pos_eq hq]
  have h1 : q / 2 ^ (Int.log 2 q - 52) < (2:ℚ) ^ (53:ℤ) := mant_ub hq
  have h2 : rnd (q / 2 ^ (Int.log 2 q - 52)) ≤ (2:ℤ) ^ (53:ℕ) := by
    refine le_trans (rnd_le_floor_add_one _) ?_
    have hfl : ⌊q / 2 ^ (Int.log 2 q - 52)⌋ < (2:ℤ) ^ (53:ℕ) := by
      rw [Int.floor_lt]
      push_cast
      convert h1 using 1
      norm_num
    omega
  have hpow : (0:ℚ) < 2 ^ (Int.log 2 q - 52) := zpow_pos (by norm_num) _
  calc (rnd (q / 2 ^ (Int.log 2 q - 52)) : ℚ) * 2 ^ (Int.log 2 q - 52)
      ≤ ((2:ℤ) ^ (53:ℕ) : ℚ) * 2 ^ (Int.log 2 q - 52) := by
        apply mul_le_mul_of_nonneg_right _ hpow.le
        exact_mod_cast h2
    _ = 2 ^ (Int.log 2 q + 1) := by
        push_cast
        rw [← zpow_natCast (2:ℚ) 53, ← zpow_add₀ (by norm_num : (2:ℚ) ≠ 0)]
        congr 1
        omega

/-- Helper: floatRound of a positive value is positive. -/
theorem floatRound_pos {q : ℚ} (hq : 0 < q) : 0 < floatRound q :=
  lt_of_lt_of_le (zpow_pos (by norm_num) _) (floatRound_lb hq)

/-- Helper: floatRound of a nonnegative value is nonnegative. -/
theorem floatRound_nonneg {q : ℚ} (hq : 0 ≤ q) : 0 ≤ floatRound q := by
  rcases eq_or_lt_of_le hq with h | h
  · rw [← h, floatRound_zero]
  · exact (floatRound_pos h).le

/-- Helper: rounding error bound, half an ulp. -/
theorem floatRound_err {q : ℚ} (hq : 0 < q) :
    |floatRound q - q| ≤ (2:ℚ) ^ (Int.log 2 q - 53) := by
  rw [floatRound_pos_eq hq]
  have hpow : (0:ℚ) < 2 ^ (Int.log 2 q - 52) := zpow_pos (by norm_num) _
  have key : (rnd (q / 2 ^ (Int.log 2 q - 52)) : ℚ) * 2 ^ (Int.log 2 q - 52) - q =
      ((rnd (q / 2 ^ (Int.log 2 q - 52)) : ℚ) - q / 2 ^ (Int.log 2 q - 52)) *
        2 ^ (Int.log 2 q - 52) := by
    field_simp
  rw [key, abs_mul, abs_of_pos hpow]
  calc |(rnd (q / 2 ^ (Int.log 2 q - 52)) : ℚ) - q / 2 ^ (Int.log 2 q - 52)| *
        2 ^ (Int.log 2 q - 52)
      ≤ (1/2) * 2 ^ (Int.log 2 q - 52) := by
        apply mul_le_mul_of_nonneg_right (abs_rnd_sub_le _) hpow.le
    _ = 2 ^ (Int.log 2 q - 53) := by
        rw [show (1/2 : ℚ) = 2 ^ (-1 : ℤ) by norm_num,
            ← zpow_add₀ (by norm_num : (2:ℚ) ≠ 0)]
        congr 1
        omega

/-- Helper: floatRound is monotone on nonnegative inputs. -/
theorem floatRound_mono {a b : ℚ} (ha : 0 ≤ a) (h : a ≤ b) :
    floatRound a ≤ floatRound b := by
  rcases eq_or_lt_of_le ha with h0 | hpos
  · rw [← h0, floatRound_zero]
    exact floatRound_nonneg (h0 ▸ h)
  · have hb : 0 < b := lt_of_lt_of_le hpos h
    have hl : Int.log 2 a ≤ Int.log 2 b := Int.log_mono_right hpos h
    rcases lt_or_eq_of_le hl with hlt | heq
    · calc floatRound a ≤ 2 ^ (Int.log 2 a + 1) := floatRound_ub hpos
        _ ≤ 2 ^ (Int.log 2 b) := zpow_le_zpow_right₀ one_le_two (by omega)
        _ ≤ floatRound b := floatRound_lb hb
    · rw [floatRound_pos_eq hpos, floatRound_pos_eq hb, ← heq]
      have hpow : (0:ℚ) < 2 ^ (Int.log 2 a - 52) := zpow_pos (by norm_num) _
      have hdiv : a / 2 ^ (Int.log 2 a - 52) ≤ b / 2 ^ (Int.log 2 a - 52) := by
        gcongr
      have hr := rnd_mono hdiv
      exact mul_le_mul_of_nonneg_right (by exact_mod_cast hr) hpow.le

/-- Helper: floatRound fixes any positive value whose normalized mantissa is
an integer (a value representable in 53 significant bits). -/
theorem floatRound_eq_self {q : ℚ} (hq : 0 < q)
    (h : ∃ k : ℤ, (k : ℚ) = q / 2 ^ (Int.log 2 q - 52)) : floatRound q = q := by
  obtain ⟨k, hk⟩ := h
  have hpow : (2:ℚ) ^ (Int.log 2 q - 52) ≠ 0 := (zpow_pos (by norm_num) _).ne'
  rw [floatRound_pos_eq hq, ← hk, rnd_intCast, hk]
  field_simp

/-- Helper: floatRound fixes the integers from 0 up to 2^53. -/
theorem floatRound_intCast {n : ℤ} (h0 : 0 ≤ n) (h : n ≤ 2 ^ 53) :
    floatRound (n : ℚ) = n := by
  rcases eq_or_lt_of_le h0 with h0' | hpos
  · rw [← h0']
    exact floatRound_zero
  have hq : (0:ℚ) < (n:ℚ) := by exact_mod_cast hpos
  have hl53 : Int.log 2 (n:ℚ) ≤ 53 := by
    have hle : (n:ℚ) ≤ (2:ℚ) ^ (53:ℤ) := by
      have : ((2:ℤ) ^ (53:ℕ) : ℚ) = (2:ℚ) ^ (53:ℤ) := by norm_num
      rw [← this]
      exact_mod_cast h
    calc Int.log 2 (n:ℚ) ≤ Int.log 2 ((2:ℚ) ^ (53:ℤ)) := Int.log_mono_right hq hle
      _ = 53 := Int.log_zpow one_lt_two 53
  apply floatRound_eq_self hq
  by_cases hc : Int.log 2 (n:ℚ) ≤ 52
  · refine ⟨n * 2 ^ (52 - Int.log 2 (n:ℚ)).toNat, ?_⟩
    have ht : ((52 - Int.log 2 (n:ℚ)).toNat : ℤ) = 52 - Int.log 2 (n:ℚ) :=
      Int.toNat_of_nonneg (by omega)
    have hpow : (2:ℚ) ^ (Int.log 2 (n:ℚ) - 52) ≠ 0 := (zpow_pos (by norm_num) _).ne'
    push_cast
    rw [eq_div_iff hpow, ← zpow_natCast (2:ℚ) (52 - Int.log 2 (n:ℚ)).toNat, ht,
        mul_assoc, ← zpow_add₀ (by norm_num : (2:ℚ) ≠ 0)]
    norm_num
  · have hl : Int.log 2 (n:ℚ) = 53 := by omega
    have hge : (2:ℚ) ^ (53:ℤ) ≤ (n:ℚ) := by
      have := Int.zpow_log_le_self (b := 2) one_lt_two hq
      rw [hl] at this
      push_cast at this ⊢
      exact this
    have hn : n = 2 ^ 53 := by
      have : ((2:ℤ) ^ (53:ℕ) : ℚ) ≤ (n:ℚ) := by
        calc ((2:ℤ) ^ (53:ℕ) : ℚ) = (2:ℚ) ^ (53:ℤ) := by norm_num
          _ ≤ (n:ℚ) := hge
      have h2 : (2:ℤ) ^ (53:ℕ) ≤ n := by exact_mod_cast this
      omega
    refine ⟨2 ^ 52, ?_⟩
    rw [hl, hn]
    push_cast
    norm_num

/-- Helper: characterization of the binary logarithm by a power sandwich. -/
theorem log2_eq_of {q : ℚ} {m : ℤ} (h1 : (2:ℚ) ^ m ≤ q) (h2 : q < 2 ^ (m + 1)) :
    Int.log 2 q = m := by
  have hq : 0 < q := lt_of_lt_of_le (zpow_pos (by norm_num) m) h1
  have ha := (Int.zpow_le_iff_le_log (b := 2) one_lt_two hq).mp (by push_cast; exact h1)
  have hb := (Int.lt_zpow_iff_log_lt (b := 2) one_lt_two hq).mp (by push_cast; exact h2)
  omega

/-- Helper: the source's float64 division pipeline — float64(d) divided by
float64(i), truncated to int64 — produces the exact integer quotient whenever
0 ≤ d < 2^53 and 0 < i.  Below 2^53 the dividend converts exactly; a divisor
below 2^53 also converts exactly and the quotient's rounding error (at most
half an ulp, which is smaller than 1/i at the quotient's magnitude) cannot
carry it across an integer boundary; a divisor of 2^53 or more rounds to at
least 2^53, keeping the quotient inside [0, 1). -/
theorem floatQuot_exact {d i : ℤ} (hd0 : 0 ≤ d) (hd : d < 2 ^ 53) (hi : 0 < i) :
    ratTrunc (floatDiv (floatRound (d:ℚ)) (floatRound (i:ℚ))) = d / i := by
  rcases eq_or_lt_of_le hd0 with h0 | hdpos
  · obtain rfl : d = 0 := h0.symm
    have hz : floatDiv (floatRound ((0:ℤ):ℚ)) (floatRound (i:ℚ)) = 0 := by
      push_cast
      rw [floatRound_zero]
      unfold floatDiv
      rw [zero_div, floatRound_zero]
    rw [hz, Int.zero_ediv, ratTrunc_eq_floor le_rfl]
    exact Int.floor_zero
  have hiq : (0:ℚ) < (i:ℚ) := by exact_mod_cast hi
  have hfrd : floatRound (d:ℚ) = (d:ℚ) := floatRound_intCast hd0 (by omega)
  by_cases hsmall : i < 2 ^ 53
  · have hfri : floatRound (i:ℚ) = (i:ℚ) := floatRound_intCast hi.le (by omega)
    rw [hfrd, hfri]
    unfold floatDiv
    set q : ℚ := (d:ℚ) / (i:ℚ) with hqdef
    have hq : 0 < q := div_pos (by exact_mod_cast hdpos) hiq
    set m : ℤ := d / i with hmdef
    have hm0 : 0 ≤ m := Int.ediv_nonneg hd0 hi.le
    have hmd : m ≤ d := Int.ediv_le_self i hd0
    have hdm := Int.ediv_add_emod d i
    rw [← hmdef] at hdm
    have hmod1 := Int.emod_nonneg d hi.ne'
    have hmod2 := Int.emod_lt_of_pos d hi
    have hr1 : i * m ≤ d := by omega
    have hr2 : d ≤ i * m + i - 1 := by omega
    have hmq : (m:ℚ) ≤ q := by
      rw [hqdef, le_div_iff₀ hiq]
      calc (m:ℚ) * i = ((i * m : ℤ):ℚ) := by push_cast; ring
        _ ≤ d := by exact_mod_cast hr1
    have hq1 : q ≤ (m:ℚ) + 1 - 1 / i := by
      rw [hqdef, div_le_iff₀ hiq]
      have he : ((m:ℚ) + 1 - 1/i) * i = m * i + i - 1 := by
        field_simp
        ring
      rw [he]
      calc (d:ℚ) ≤ ((i * m + i - 1 : ℤ):ℚ) := by exact_mod_cast hr2
        _ = (m:ℚ) * i + i - 1 := by push_cast; ring
    have hlow : (m:ℚ) ≤ floatRound q := by
      rcases eq_or_lt_of_le hm0 with hm00 | hmpos
      · rw [← hm00]
        push_cast
        exact floatRound_nonneg hq.le
      · have hmono : floatRound ((m:ℚ)) ≤ floatRound q :=
          floatRound_mono (by exact_mod_cast hm0) hmq
        rwa [floatRound_intCast hm0 (by omega)] at hmono
    have hupp : floatRound q < (m:ℚ) + 1 := by
      have herr := floatRound_err hq
      have hlogle : (2:ℚ) ^ (Int.log 2 q) ≤ q := by
        have := Int.zpow_log_le_self (b := 2) one_lt_two hq
        push_cast at this
        exact this
      have hkey : (i:ℚ) * 2 ^ (Int.log 2 q) < 2 ^ (53:ℤ) := by
        calc (i:ℚ) * 2 ^ (Int.log 2 q) ≤ i * q :=
              mul_le_mul_of_nonneg_left hlogle hiq.le
          _ = d := by
              rw [hqdef]
              field_simp
          _ < 2 ^ (53:ℤ) := by
              have hc : ((2:ℤ)^(53:ℕ) : ℚ) = (2:ℚ)^(53:ℤ) := by norm_num
              rw [← hc]
              exact_mod_cast hd
      have hsm : (2:ℚ) ^ (Int.log 2 q - 53) < 1 / i := by
        rw [zpow_sub₀ (by norm_num : (2:ℚ) ≠ 0),
            div_lt_div_iff₀ (zpow_pos (by norm_num) _) hiq]
        calc (2:ℚ) ^ (Int.log 2 q) * i = i * 2 ^ (Int.log 2 q) := by ring
          _ < 2 ^ (53:ℤ) := hkey
          _ = 1 * 2 ^ (53:ℤ) := by ring
      have h1 : floatRound q ≤ q + 2 ^ (Int.log 2 q - 53) := by
        have habs := abs_le.mp herr
        linarith [habs.2]
      linarith [hq1, hsm]
    have hfrnn : 0 ≤ floatRound q := floatRound_nonneg hq.le
    rw [ratTrunc_eq_floor hfrnn, Int.floor_eq_iff]
    refine ⟨hlow, ?_⟩
    push_cast
    linarith [hupp]
  · push_neg at hsmall
    have hm : d / i = 0 := Int.ediv_eq_zero_of_lt hd0 (by omega)
    rw [hm, hfrd]
    unfold floatDiv
    have hfri_lb : ((2:ℤ)^(53:ℕ) : ℚ) ≤ floatRound (i:ℚ) := by
      have h1 : floatRound (((2:ℤ)^(53:ℕ) : ℤ):ℚ) ≤ floatRound (i:ℚ) :=
        floatRound_mono (by positivity) (by exact_mod_cast hsmall)
      rwa [floatRound_intCast (by positivity) (by norm_num)] at h1
    have hfri_pos : (0:ℚ) < floatRound (i:ℚ) := floatRound_pos (by exact_mod_cast hi)
    set y := floatRound (i:ℚ) with hydef
    set x : ℚ := (2^53 - 1) / 2^53 with hxdef
    have hq'nn : 0 ≤ (d:ℚ) / y := div_nonneg (by exact_mod_cast hd0) hfri_pos.le
    have hq'ub : (d:ℚ) / y ≤ x := by
      rw [hxdef]
      have hd' : (d:ℚ) ≤ 2^53 - 1 := by
        have hz : d ≤ 2^53 - 1 := by omega
        calc (d:ℚ) ≤ ((2^53 - 1 : ℤ):ℚ) := by exact_mod_cast hz
          _ = 2^53 - 1 := by push_cast; ring
      have hy' : (2:ℚ)^53 ≤ y := by
        calc (2:ℚ)^53 = ((2:ℤ)^(53:ℕ) : ℚ) := by push_cast; ring
          _ ≤ y := hfri_lb
      gcongr
    have hx_pos : (0:ℚ) < x := by
      rw [hxdef]
      norm_num
    have hlogx : Int.log 2 x = -1 := by
      apply log2_eq_of
      · rw [hxdef, zpow_neg, zpow_one, inv_eq_one_div,
            div_le_div_iff₀ (by norm_num) (by norm_num : (0:ℚ) < 2^53)]
        norm_num
      · rw [hxdef, show ((-1):ℤ) + 1 = 0 by norm_num, zpow_zero,
            div_lt_one (by norm_num : (0:ℚ) < 2^53)]
        norm_num
    have hfx : floatRound x = x := by
      apply floatRound_eq_self hx_pos
      refine ⟨2^53 - 1, ?_⟩
      rw [hlogx, hxdef, show ((-1):ℤ) - 52 = ((-53):ℤ) by norm_num]
      rw [show ((2:ℚ)) ^ ((-53):ℤ) = ((2:ℚ)^(53:ℕ))⁻¹ by
            rw [zpow_neg]
            norm_num]
      push_cast
      norm_num
    have hub : floatRound ((d:ℚ)/y) ≤ x := by
      have hmono := floatRound_mono hq'nn hq'ub
      rwa [hfx] at hmono
    have hnn : 0 ≤ floatRound ((d:ℚ)/y) := floatRound_nonneg hq'nn
    rw [ratTrunc_eq_floor hnn, Int.floor_eq_iff]
    constructor
    · exact_mod_cast hnn
    · have hx1 : x < 1 := by
        rw [hxdef]
        norm_num
      push_cast
      linarith

/-- Helper: the absolute value of a converted int64 is the conversion of its
absolute value (floatRound is odd). -/
theorem abs_floatOfInt (x : ℤ) : |floatOfInt x| = floatRound ((|x| : ℤ) : ℚ) := by
  unfold floatOfInt
  rcases le_or_lt 0 x with h | h
  · rw [abs_of_nonneg (floatRound_nonneg (by exact_mod_cast h : (0:ℚ) ≤ (x:ℚ)))]
    rw [abs_of_nonneg h]
  · have hx : (x:ℚ) < 0 := by exact_mod_cast h
    have hodd : floatRound ((x:ℚ)) = -floatRound (-(x:ℚ)) := by
      rw [← floatRound_neg, neg_neg]
    rw [hodd, abs_neg, abs_of_nonneg (floatRound_nonneg (by linarith)), abs_of_neg h]
    norm_cast

/-- Helper: intervalCount is the exact quotient whenever the saturated
absolute difference is below 2^53. -/
theorem intervalCount_exact (s f i : ℤ) (hi : 0 < i) (hd : |satSub f s| < 2 ^ 53) :
    intervalCount s f i = |satSub f s| / i := by
  unfold intervalCount
  rw [abs_floatOfInt]
  unfold floatOfInt
  exact floatQuot_exact (abs_nonneg _) hd hi

/-- Helper: satSub is plain subtraction inside the int64 range. -/
theorem satSub_eq (e s : ℤ) (h1 : -(2 ^ 63) ≤ e - s) (h2 : e - s ≤ 2 ^ 63 - 1) :
    satSub e s = e - s := by
  unfold satSub
  rw [if_neg (by omega), if_neg (by omega)]

/-- Helper: a saturated difference of magnitude below 2^53 is unclamped. -/
theorem satSub_small {f s : ℤ} (hd : |satSub f s| < 2 ^ 53) : satSub f s = f - s := by
  rcases abs_lt.mp hd with ⟨h1, h2⟩
  unfold satSub at h1 h2 ⊢
  split_ifs at h1 h2 ⊢ with ha hb
  · omega
  · omega
  · rfl

/-- Helper: float64 conversion of 2^53 + 1 rounds down to 2^53, the round-half
to even choice between the adjacent representables 2^53 and 2^53 + 2. -/
theorem floatRound_succ_2_53 : floatRound ((2:ℚ) ^ 53 + 1) = 2 ^ 53 := by
  have hpos : (0:ℚ) < 2 ^ 53 + 1 := by norm_num
  have hlog : Int.log 2 ((2:ℚ) ^ 53 + 1) = 53 := by
    apply log2_eq_of
    · norm_num
    · norm_num
  rw [floatRound_pos_eq hpos, hlog]
  have he : ((2:ℚ) ^ 53 + 1) / 2 ^ ((53:ℤ) - 52) = 2 ^ 52 + 1 / 2 := by
    norm_num
  rw [he]
  have hf : ⌊(2:ℚ) ^ 52 + 1 / 2⌋ = 2 ^ 52 := by
    rw [Int.floor_eq_iff]
    constructor
    · push_cast
      norm_num
    · push_cast
      norm_num
  have hr : rnd ((2:ℚ) ^ 52 + 1 / 2) = 2 ^ 52 := by
    unfold rnd
    rw [ratFloor_eq_floor, hf]
    rw [if_neg (by push_cast; norm_num), if_neg (by push_cast; norm_num),
        if_pos (by norm_num)]
  rw [hr]
  push_cast
  norm_num

/-- Helper: the interval count over a difference of 2^53 + 1 ns with a 1 ns
interval comes out one short, at 2^53. -/
theorem intervalCount_lost_unit : intervalCount 0 (2 ^ 53 + 1) 1 = 2 ^ 53 := by
  unfold intervalCount
  have hs : satSub (2 ^ 53 + 1) 0 = 2 ^ 53 + 1 := satSub_eq _ _ (by omega) (by omega)
  rw [hs]
  have h1 : |floatOfInt (2 ^ 53 + 1)| = floatRound (((2:ℤ) ^ 53 + 1 : ℤ) : ℚ) := by
    rw [abs_floatOfInt]
    congr 1
  rw [h1]
  have h2 : floatRound (((2:ℤ) ^ 53 + 1 : ℤ) : ℚ) = (2:ℚ) ^ 53 := by
    rw [show (((2:ℤ) ^ 53 + 1 : ℤ) : ℚ) = (2:ℚ) ^ 53 + 1 by push_cast; ring]
    exact floatRound_succ_2_53
  rw [h2]
  have h3 : floatOfInt 1 = 1 := by
    unfold floatOfInt
    exact_mod_cast floatRound_intCast (by omega) (by omega : (1:ℤ) ≤ 2 ^ 53)
  rw [h3]
  unfold floatDiv
  rw [div_one]
  have h4 : floatRound ((2:ℚ) ^ 53) = (2:ℚ) ^ 53 := by
    have := floatRound_intCast (n := 2 ^ 53) (by omega) (by omega)
    rwa [show (((2:ℤ) ^ 53 : ℤ) : ℚ) = (2:ℚ) ^ 53 by push_cast; ring] at this
  rw [h4, ratTrunc_eq_floor (by norm_num)]
  rw [show ((2:ℚ) ^ 53) = (((2:ℤ) ^ 53 : ℤ) : ℚ) by push_cast; ring]
  exact Int.floor_intCast _

/-- C5 counterexample: at start 0, end 2^53 + 1 ns, interval 1 ns the code
returns 2^53 while the exact truncated quotient of |end − start| by the
interval is 2^53 + 1 — the float64 conversion of the difference rounds to
even and loses the final unit. -/
theorem C5_counterexample :
    intervalCount 0 (2 ^ 53 + 1) 1 = 2 ^ 53 ∧
    |(2 ^ 53 + 1 : ℤ) - 0| / 1 = 2 ^ 53 + 1 ∧
    (2 ^ 53 : ℤ) ≠ 2 ^ 53 + 1 :=
  ⟨intervalCount_lost_unit, by norm_num, by norm_num⟩

/-- C5 (amended): whenever the saturated absolute difference |end − start| is
below 2^53 nanoseconds and the interval is positive, intervalCount equals the
exact truncated integer quotient of that difference by the interval (whole
intervals only), and the result is the same for either argument order. -/
theorem C5_intervalCount_exact_small (s f i : ℤ) (hi : 0 < i)
    (hd : |satSub f s| < 2 ^ 53) :
    intervalCount s f i = |satSub f s| / i ∧
    intervalCount s f i = intervalCount f s i := by
  refine ⟨intervalCount_exact s f i hi hd, ?_⟩
  have h1 : satSub f s = f - s := satSub_small hd
  have habs : |f - s| < 2 ^ 53 := by
    rw [← h1]
    exact hd
  have h2 : satSub s f = s - f := by
    apply satSub_eq
    · rcases abs_lt.mp habs with ⟨ha, hb⟩
      omega
    · rcases abs_lt.mp habs with ⟨ha, hb⟩
      omega
  have hd2 : |satSub s f| < 2 ^ 53 := by
    rw [h2, abs_sub_comm]
    exact habs
  rw [intervalCount_exact s f i hi hd, intervalCount_exact f s i hi hd2]
  rw [h1, h2, abs_sub_comm]

/-- Witness for the amended C5 at a concrete input: start 0, end 10, interval
3, where the count is 3 whole intervals either way round. -/
theorem C5_witness :
    (0:ℤ) < 3 ∧ |satSub 10 0| < 2 ^ 53 ∧
    (intervalCount 0 10 3 = |satSub 10 0| / 3 ∧
     intervalCount 0 10 3 = intervalCount 10 0 3) :=
  ⟨by decide, by decide, C5_intervalCount_exact_small 0 10 3 (by decide) (by decide)⟩

/-- C6 counterexample: with start 0, end 2^53 + 1, interval 1 the returned
instant equals end itself, which is not strictly after end (the float64 count
came up one interval short, and adding one interval only reaches end). -/
theorem C6_counterexample :
    nextAfter 0 (2 ^ 53 + 1) 1 = 2 ^ 53 + 1 ∧ ¬((2 ^ 53 + 1 : ℤ) < 2 ^ 53 + 1) := by
  constructor
  · unfold nextAfter
    rw [intervalCount_lost_unit, if_neg (by omega)]
    ring
  · omega

/-- C6 (amended): for end ≥ start with end − start < 2^53 ns and a positive
interval, nextAfter returns the earliest instant of the form start +
k*interval (k a nonnegative integer) strictly after end. -/
theorem C6_nextAfter_earliest (s f i : ℤ) (hsf : s ≤ f) (hi : 0 < i)
    (hb : f - s < 2 ^ 53) :
    (∃ k : ℕ, nextAfter s f i = s + k * i) ∧
    f < nextAfter s f i ∧
    (∀ k : ℕ, f < s + k * i → nextAfter s f i ≤ s + k * i) := by
  have hs : satSub f s = f - s := satSub_eq f s (by omega) (by omega)
  have habs : |satSub f s| = f - s := by
    rw [hs]
    exact abs_of_nonneg (by omega)
  have hIC : intervalCount s f i = (f - s) / i := by
    rw [intervalCount_exact s f i hi (by rw [habs]; omega), habs]
  have hdm := Int.ediv_add_emod (f - s) i
  have hm1 := Int.emod_nonneg (f - s) hi.ne'
  have hm2 := Int.emod_lt_of_pos (f - s) hi
  have hD0 : 0 ≤ (f - s) / i := Int.ediv_nonneg (by omega) hi.le
  have hval : nextAfter s f i = s + ((f - s) / i + 1) * i := by
    unfold nextAfter
    rw [hIC, if_neg (by rw [mul_comm]; omega)]
    ring
  refine ⟨⟨((f - s) / i + 1).toNat, ?_⟩, ?_, ?_⟩
  · rw [hval, Int.toNat_of_nonneg (by omega)]
  · rw [hval]
    have he : ((f - s) / i + 1) * i = i * ((f - s) / i) + i := by ring
    rw [he]
    omega
  · intro k hk
    rw [hval]
    have hki : (k:ℤ) * i = i * k := mul_comm _ _
    have hlt : i * ((f - s) / i) < i * (k:ℤ) := by
      rw [hki] at hk
      omega
    have hDk : (f - s) / i < (k:ℤ) := lt_of_mul_lt_mul_left hlt hi.le
    have hmul : ((f - s) / i + 1) * i ≤ (k:ℤ) * i :=
      mul_le_mul_of_nonneg_right (by omega) hi.le
    omega

/-- Witness for the amended C6 at a concrete input: start 0, end 10, interval
3, whose earliest aligned instant strictly after 10 is 12. -/
theorem C6_witness :
    (0:ℤ) ≤ 10 ∧ (0:ℤ) < 3 ∧ (10:ℤ) - 0 < 2 ^ 53 ∧
    ((∃ k : ℕ, nextAfter 0 10 3 = 0 + k * 3) ∧
     10 < nextAfter 0 10 3 ∧
     (∀ k : ℕ, 10 < 0 + (k:ℤ) * 3 → nextAfter 0 10 3 ≤ 0 + k * 3)) :=
  ⟨by decide, by decide, by decide,
   C6_nextAfter_earliest 0 10 3 (by decide) (by decide) (by decide)⟩

/-- Helper: intervalCount from an anchor to the anchor plus a small offset. -/
theorem intervalCount_shift (t0 c i : ℤ) (hc0 : 0 ≤ c) (hc : c < 2 ^ 53) (hi : 0 < i) :
    intervalCount t0 (t0 + c) i = c / i := by
  have hs : satSub (t0 + c) t0 = c := by
    rw [satSub_eq (t0 + c) t0 (by omega) (by omega)]
    ring
  have hb : |satSub (t0 + c) t0| < 2 ^ 53 := by
    rw [hs, abs_of_nonneg hc0]
    omega
  rw [intervalCount_exact _ _ _ hi hb, hs, abs_of_nonneg hc0]

/-- Helper: the spec's refill scenario on a rate 5, burst 20, 1 s bucket —
draw 20 at t0, read at t0+1s (5 tokens, re-anchored), read at t0+4s (three
further intervals credit 15, clamped at the cap 20). -/
theorem scenario_5_20 (t0 : ℤ) :
    (NewBucket 5 20 (10 ^ 9)).DrawAt t0 20 = (true, ⟨5, 20, 10 ^ 9, 0, t0⟩) ∧
    (⟨5, 20, 10 ^ 9, 0, t0⟩ : Bucket).TokensAt (t0 + 10 ^ 9) =
      (5, ⟨5, 20, 10 ^ 9, 5, t0 + 10 ^ 9⟩) ∧
    (⟨5, 20, 10 ^ 9, 5, t0 + 10 ^ 9⟩ : Bucket).TokensAt (t0 + 4 * 10 ^ 9) =
      (20, ⟨5, 20, 10 ^ 9, 20, t0 + 4 * 10 ^ 9⟩) := by
  refine ⟨?_, ?_, ?_⟩
  · unfold Bucket.DrawAt NewBucket
    rw [refill_eq]
    dsimp only
    rw [if_pos rfl, if_neg (show ¬((20:ℤ) < 20) by omega)]
    simp
  · have hδ : intervalCount t0 (t0 + 10 ^ 9) (10 ^ 9) = 1 := by
      rw [intervalCount_shift t0 (10 ^ 9) (10 ^ 9) (by omega) (by omega) (by omega)]
      decide
    unfold Bucket.TokensAt
    rw [refill_eq]
    dsimp only
    rw [hδ, if_neg (show ¬((0:ℤ) = 20) by omega),
        if_neg (show ¬((20:ℤ) ≤ 0 + 1 * 5) by omega)]
    simp
  · have hc : t0 + 4 * 10 ^ 9 = (t0 + 10 ^ 9) + 3 * 10 ^ 9 := by ring
    have hδ : intervalCount (t0 + 10 ^ 9) (t0 + 4 * 10 ^ 9) (10 ^ 9) = 3 := by
      rw [hc, intervalCount_shift (t0 + 10 ^ 9) (3 * 10 ^ 9) (10 ^ 9)
            (by omega) (by omega) (by omega)]
      decide
    unfold Bucket.TokensAt
    rw [refill_eq]
    dsimp only
    rw [hδ, if_neg (show ¬((5:ℤ) = 20) by omega),
        if_pos (show (20:ℤ) ≤ 5 + 3 * 5 by omega)]

/-- C2 counterexample: in the claimed scenario (rate 5, burst 20, refill 1 s;
draw 20 at t0 = 0; read at t0+1s giving 5) the second read at t0+4s returns
20, not the claimed 15 — the t0+1s read already credited 5 tokens and
re-anchored, so the three remaining intervals credit 15 more and the balance
clamps at the burst cap. -/
theorem C2_counterexample :
    ((((NewBucket 5 20 (10 ^ 9)).DrawAt 0 20).2.TokensAt (10 ^ 9)).2.TokensAt
        (4 * 10 ^ 9)).1 = 20 ∧ (20 : ℤ) ≠ 15 := by
  have h1 := (scenario_5_20 0).1
  have h2 := (scenario_5_20 0).2.1
  have h3 := (scenario_5_20 0).2.2
  norm_num at h1 h2 h3 ⊢
  rw [h1, h2, h3]

/-- C2 (amended): with rate 5, burst 20, refill 1 s, after drawing 20 at t0 a
read at t0+1s returns 5; a subsequent read at t0+4s (no intervening draws)
returns 20, the balance having been clamped to the burst cap because the
t0+1s read already credited 5 and re-anchored lastUpdate, so the remaining
three intervals credit 15 more and the accumulated credit meets the cap. -/
theorem C2_refill_scenario (t0 : ℤ) :
    ((NewBucket 5 20 (10 ^ 9)).DrawAt t0 20).1 = true ∧
    (((NewBucket 5 20 (10 ^ 9)).DrawAt t0 20).2.TokensAt (t0 + 10 ^ 9)).1 = 5 ∧
    ((((NewBucket 5 20 (10 ^ 9)).DrawAt t0 20).2.TokensAt
        (t0 + 10 ^ 9)).2.TokensAt (t0 + 4 * 10 ^ 9)).1 = 20 := by
  obtain ⟨h1, h2, h3⟩ := scenario_5_20 t0
  rw [h1, h2, h3]
  exact ⟨rfl, rfl, rfl⟩

/-- Helper: under chronological use (lastUpdate ≤ t), elapsed time below 2^53
ns and a positive refill interval, reconciling twice at the same instant
leaves the state of the first reconciliation untouched. -/
theorem refill_idem (b : Bucket) (t : ℤ) (hlu : b.lastUpdate ≤ t)
    (hb : t - b.lastUpdate < 2 ^ 53) (hi : 0 < b.Refill) :
    refill (refill b t) t = refill b t := by
  have hsat : satSub t b.lastUpdate = t - b.lastUpdate :=
    satSub_eq _ _ (by omega) (by omega)
  have habs : |satSub t b.lastUpdate| = t - b.lastUpdate := by
    rw [hsat]
    exact abs_of_nonneg (by omega)
  have hIC : intervalCount b.lastUpdate t b.Refill = (t - b.lastUpdate) / b.Refill := by
    rw [intervalCount_exact _ _ _ hi (by rw [habs]; omega), habs]
  have hdm := Int.ediv_add_emod (t - b.lastUpdate) b.Refill
  have hm1 := Int.emod_nonneg (t - b.lastUpdate) hi.ne'
  have hm2 := Int.emod_lt_of_pos (t - b.lastUpdate) hi
  have hD0 : 0 ≤ (t - b.lastUpdate) / b.Refill := Int.ediv_nonneg (by omega) hi.le
  have hDReq : (t - b.lastUpdate) / b.Refill * b.Refill =
      b.Refill * ((t - b.lastUpdate) / b.Refill) := mul_comm _ _
  have hDRnn : 0 ≤ (t - b.lastUpdate) / b.Refill * b.Refill := mul_nonneg hD0 hi.le
  rw [refill_eq b t, hIC]
  by_cases h1 : b.tokens = b.Burst
  · rw [if_pos h1, refill_eq]
    dsimp only
    rw [if_pos h1]
  · rw [if_neg h1]
    by_cases h2 : b.Burst ≤ b.tokens + (t - b.lastUpdate) / b.Refill * b.Limit
    · rw [if_pos h2, refill_eq]
      dsimp only
      rw [if_pos rfl]
    · rw [if_neg h2, refill_eq]
      dsimp only
      rw [if_neg (show
            ¬(b.tokens + (t - b.lastUpdate) / b.Refill * b.Limit = b.Burst) by omega)]
      have hDR : (t - b.lastUpdate) / b.Refill * b.Refill ≤ t - b.lastUpdate := by
        rw [mul_comm]
        omega
      have hlt : t - (b.lastUpdate + (t - b.lastUpdate) / b.Refill * b.Refill) <
          b.Refill := by
        rw [mul_comm ((t - b.lastUpdate) / b.Refill) b.Refill] at hDR ⊢
        omega
      have hIC2 : intervalCount
          (b.lastUpdate + (t - b.lastUpdate) / b.Refill * b.Refill) t b.Refill = 0 := by
        have hsat2 : satSub t (b.lastUpdate + (t - b.lastUpdate) / b.Refill * b.Refill) =
            t - (b.lastUpdate + (t - b.lastUpdate) / b.Refill * b.Refill) :=
          satSub_eq _ _ (by omega) (by omega)
        have habs2 : |satSub t
            (b.lastUpdate + (t - b.lastUpdate) / b.Refill * b.Refill)| =
            t - (b.lastUpdate + (t - b.lastUpdate) / b.Refill * b.Refill) := by
          rw [hsat2]
          exact abs_of_nonneg (by omega)
        rw [intervalCount_exact _ _ _ hi (by rw [habs2]; omega), habs2]
        exact Int.ediv_eq_zero_of_lt (by omega) hlt
      rw [hIC2]
      rw [if_neg (show ¬(b.Burst ≤ b.tokens +
            (t - b.lastUpdate) / b.Refill * b.Limit + 0 * b.Limit) by omega)]
      simp

/-- C8 counterexample: the bucket (rate 1, burst 2^60, refill 1 ns, 0 tokens,
anchor 0) read twice at t = 2^53 + 1 with no intervening mutation returns
2^53 the first time and 2^53 + 1 the second: the first read's float64 interval
count came up one short, so a stale interval remains to be credited. -/
theorem C8_counterexample :
    ((⟨1, 2 ^ 60, 1, 0, 0⟩ : Bucket).TokensAt (2 ^ 53 + 1)).1 = 2 ^ 53 ∧
    (((⟨1, 2 ^ 60, 1, 0, 0⟩ : Bucket).TokensAt (2 ^ 53 + 1)).2.TokensAt
        (2 ^ 53 + 1)).1 = 2 ^ 53 + 1 ∧
    (2 ^ 53 : ℤ) ≠ 2 ^ 53 + 1 := by
  have h1 : (⟨1, 2 ^ 60, 1, 0, 0⟩ : Bucket).TokensAt (2 ^ 53 + 1) =
      (2 ^ 53, ⟨1, 2 ^ 60, 1, 2 ^ 53, 2 ^ 53⟩) := by
    unfold Bucket.TokensAt
    rw [refill_eq]
    dsimp only
    rw [intervalCount_lost_unit,
        if_neg (show ¬((0:ℤ) = 2 ^ 60) by omega),
        if_neg (show ¬((2 ^ 60 : ℤ) ≤ 0 + 2 ^ 53 * 1) by omega)]
    simp
  have hδ2 : intervalCount (2 ^ 53) (2 ^ 53 + 1) 1 = 1 := by
    rw [intervalCount_shift (2 ^ 53) 1 1 (by omega) (by omega) (by omega)]
    decide
  have h2 : (⟨1, 2 ^ 60, 1, 2 ^ 53, 2 ^ 53⟩ : Bucket).TokensAt (2 ^ 53 + 1) =
      (2 ^ 53 + 1, ⟨1, 2 ^ 60, 1, 2 ^ 53 + 1, 2 ^ 53 + 1⟩) := by
    unfold Bucket.TokensAt
    rw [refill_eq]
    dsimp only
    rw [hδ2,
        if_neg (show ¬((2 ^ 53 : ℤ) = 2 ^ 60) by omega),
        if_neg (show ¬((2 ^ 60 : ℤ) ≤ 2 ^ 53 + 1 * 1) by omega)]
    simp
  rw [h1, h2]
  refine ⟨rfl, rfl, by omega⟩

/-- C8 (amended): under the caller contract of non-descending timestamps
(lastUpdate ≤ t), elapsed time below 2^53 ns and a positive refill interval,
the read-only reconciling operations TokensAt and CanDrawAt return the same
result when invoked twice in succession at the same timestamp with no
intervening mutation. -/
theorem C8_reads_idempotent (b : Bucket) (t : ℤ) (hlu : b.lastUpdate ≤ t)
    (hb : t - b.lastUpdate < 2 ^ 53) (hi : 0 < b.Refill) :
    ((b.TokensAt t).2.TokensAt t).1 = (b.TokensAt t).1 ∧
    ∀ n, ((b.CanDrawAt t n).2.CanDrawAt t n).1 = (b.CanDrawAt t n).1 := by
  have hid := refill_idem b t hlu hb hi
  constructor
  · show (refill (refill b t) t).tokens = (refill b t).tokens
    rw [hid]
  · intro n
    show decide (n ≤ (refill (refill b t) t).tokens) = decide (n ≤ (refill b t).tokens)
    rw [hid]

/-- Witness for the amended C8 at a concrete input: a partly drawn 5/20/1s
bucket anchored at 0 and read twice at t = 1 s. -/
theorem C8_witness :
    (⟨5, 20, 10 ^ 9, 3, 0⟩ : Bucket).lastUpdate ≤ 10 ^ 9 ∧
    (10 ^ 9 : ℤ) - (⟨5, 20, 10 ^ 9, 3, 0⟩ : Bucket).lastUpdate < 2 ^ 53 ∧
    (0 : ℤ) < (⟨5, 20, 10 ^ 9, 3, 0⟩ : Bucket).Refill ∧
    (((((⟨5, 20, 10 ^ 9, 3, 0⟩ : Bucket).TokensAt (10 ^ 9)).2.TokensAt (10 ^ 9)).1 =
        ((⟨5, 20, 10 ^ 9, 3, 0⟩ : Bucket).TokensAt (10 ^ 9)).1) ∧
      ∀ n, (((⟨5, 20, 10 ^ 9, 3, 0⟩ : Bucket).CanDrawAt (10 ^ 9) n).2.CanDrawAt
          (10 ^ 9) n).1 = ((⟨5, 20, 10 ^ 9, 3, 0⟩ : Bucket).CanDrawAt (10 ^ 9) n).1) :=
  ⟨by decide, by decide, by decide,
   C8_reads_idempotent (⟨5, 20, 10 ^ 9, 3, 0⟩ : Bucket) (10 ^ 9)
     (by decide) (by decide) (by decide)⟩

/-- C9: InferTokensAt leaves the bucket state completely unchanged — the
returned state component is the input state itself, with neither tokens nor
lastUpdate mutated (the Go body performs no field assignment) — while
returning the projected balance at t; moreover under nonnegative rate, the
caller contract of chronological timestamps, elapsed time below 2^53 ns and a
positive refill interval, the projection coincides with what TokensAt would
return at t, i.e. the balance at t assuming no intervening draws.  The
hypothesis Refill ≠ 0 excludes the division-by-zero panic of the Go body. -/
theorem C9_inferTokensAt_pure (b : Bucket) (t : ℤ) (hR : b.Refill ≠ 0) :
    (∃ v, b.InferTokensAt t = some (v, b)) ∧
    (0 ≤ b.Limit → b.lastUpdate ≤ t → t - b.lastUpdate < 2 ^ 53 → 0 < b.Refill →
      b.InferTokensAt t = some ((b.TokensAt t).1, b)) := by
  constructor
  · unfold Bucket.InferTokensAt
    rw [if_neg hR]
    dsimp only
    split
    · exact ⟨b.Burst, rfl⟩
    · exact ⟨_, rfl⟩
  · intro hL hlu hb hi
    have hsat : satSub t b.lastUpdate = t - b.lastUpdate :=
      satSub_eq _ _ (by omega) (by omega)
    have habs : |satSub t b.lastUpdate| = t - b.lastUpdate := by
      rw [hsat]
      exact abs_of_nonneg (by omega)
    have hIC : intervalCount b.lastUpdate t b.Refill =
        (t - b.lastUpdate) / b.Refill := by
      rw [intervalCount_exact _ _ _ hi (by rw [habs]; omega), habs]
    have htd : Int.tdiv (satSub t b.lastUpdate) b.Refill =
        (t - b.lastUpdate) / b.Refill := by
      rw [hsat]
      exact Int.tdiv_eq_ediv (by omega) hi.le
    have hD0 : 0 ≤ (t - b.lastUpdate) / b.Refill := Int.ediv_nonneg (by omega) hi.le
    have hDL : 0 ≤ (t - b.lastUpdate) / b.Refill * b.Limit := mul_nonneg hD0 hL
    unfold Bucket.InferTokensAt Bucket.TokensAt
    rw [if_neg hR]
    dsimp only
    rw [htd, refill_eq, hIC]
    by_cases h1 : b.tokens = b.Burst
    · rw [if_pos h1]
      by_cases h2 : b.Burst < b.tokens + (t - b.lastUpdate) / b.Refill * b.Limit
      · rw [if_pos h2]
        dsimp only
        rw [h1]
      · rw [if_neg h2]
        dsimp only
        simp only [Option.some.injEq, Prod.mk.injEq]
        exact ⟨by omega, trivial⟩
    · rw [if_neg h1]
      by_cases h3 : b.Burst ≤ b.tokens + (t - b.lastUpdate) / b.Refill * b.Limit
      · rw [if_pos h3]
        dsimp only
        by_cases h2 : b.Burst < b.tokens + (t - b.lastUpdate) / b.Refill * b.Limit
        · rw [if_pos h2]
        · rw [if_neg h2]
          simp only [Option.some.injEq, Prod.mk.injEq]
          exact ⟨by omega, trivial⟩
      · rw [if_neg h3]
        dsimp only
        rw [if_neg (show ¬(b.Burst <
              b.tokens + (t - b.lastUpdate) / b.Refill * b.Limit) by omega)]

/-- Witness for C9 at a concrete input: an empty 5/20/1s bucket anchored at 0,
forecast at t = 1 s (projection 5, state untouched, agreeing with TokensAt). -/
theorem C9_witness :
    (⟨5, 20, 10 ^ 9, 0, 0⟩ : Bucket).Refill ≠ 0 ∧
    (∃ v, (⟨5, 20, 10 ^ 9, 0, 0⟩ : Bucket).InferTokensAt (10 ^ 9) =
      some (v, ⟨5, 20, 10 ^ 9, 0, 0⟩)) ∧
    (⟨5, 20, 10 ^ 9, 0, 0⟩ : Bucket).InferTokensAt (10 ^ 9) =
      some (((⟨5, 20, 10 ^ 9, 0, 0⟩ : Bucket).TokensAt (10 ^ 9)).1,
        ⟨5, 20, 10 ^ 9, 0, 0⟩) :=
  ⟨by decide,
   (C9_inferTokensAt_pure (⟨5, 20, 10 ^ 9, 0, 0⟩ : Bucket) (10 ^ 9) (by decide)).1,
   (C9_inferTokensAt_pure (⟨5, 20, 10 ^ 9, 0, 0⟩ : Bucket) (10 ^ 9) (by decide)).2
     (by decide) (by decide) (by decide) (by decide)⟩

end Gorl
